import Mathlib

/-!
A shallow embedding of the photo-gallery service (`internal/service/gallery.go` and the
handler code) together with proofs of the specification's testable properties.

The filesystem is modelled explicitly: the upload directory is a list of files (name,
modification time, extracted EXIF time, decodability), the metadata directory is an
association list from sidecar filename to file content, and the thumbnail directory is a
list of names.  Machine-level concerns are made explicit: Go's integer division panics on a
zero divisor, so divisions are modelled with `goDiv` returning `Option`; `os.Stat` on
`filepath.Join(dir, name)` is modelled by `statName`, which accounts for `Join`'s path
cleaning (an all-separator or dot name resolves to an existing directory, and leading
separators are stripped before the directory entry is consulted).
-/

namespace Gallery

/-- Drop trailing '/' separators, as the first loop of Go's `filepath.Base`. -/
def dropTrailingSep (cs : List Char) : List Char :=
  (cs.reverse.dropWhile (fun c => c = '/')).reverse

/-- The segment of a character list strictly after its last '/' (the whole list if it has
no '/'), as `path[i+1:]` with `i = strings.LastIndex(path, "/")`. -/
def afterLastSep (cs : List Char) : List Char :=
  cs.foldl (fun acc c => if c = '/' then [] else acc ++ [c]) []

/-- Go's `filepath.Base` on a Unix platform. -/
def baseName (path : String) : String :=
  if path = "" then "."
  else if afterLastSep (dropTrailingSep path.data) = [] then "/"
  else (afterLastSep (dropTrailingSep path.data)).asString

/-- Go's `filepath.Ext`: the suffix of the final (separator-free) path element starting at
its last dot, or the empty string when that element has no dot. -/
def extName (path : String) : String :=
  if (path.data.reverse.takeWhile (fun c => c ≠ '/')).any (fun c => c = '.') then
    (((path.data.reverse.takeWhile (fun c => c ≠ '/')).takeWhile (fun c => c ≠ '.')) ++
      ['.']).reverse.asString
  else ""

/-- Go's `strings.TrimSuffix`. -/
def trimSuffix (s suf : String) : String :=
  if suf.data.isSuffixOf s.data then (s.data.take (s.data.length - suf.data.length)).asString
  else s

/-- An ordinary directory-entry name: nonempty, free of separators and not one of the two
special dot entries.  Every name actually produced by a directory listing satisfies this. -/
def PlainName (s : String) : Prop :=
  s ≠ "" ∧ '/' ∉ s.data ∧ s ≠ "." ∧ s ≠ ".."

instance (s : String) : Decidable (PlainName s) := by
  unfold PlainName; infer_instance

/-- A nonempty name made of separators only; `filepath.Join(dir, name)` then cleans to
`dir` itself. -/
def isAllSep (s : String) : Bool :=
  !(s = "") && s.data.all (fun c => c = '/')

/-- Remove leading separators; `filepath.Join(dir, name)` cleans `dir//x` to `dir/x`. -/
def stripLeadingSep (s : String) : String :=
  (s.data.dropWhile (fun c => c = '/')).asString

/-- Whether `os.Stat(filepath.Join(dir, name))` finds an existing filesystem object, given
the list of entries of `dir`.  The empty name, the dot entries and all-separator names
resolve (after `Join`'s cleaning) to a directory that exists; otherwise `Join` strips any
leading separators and the entry list is consulted. -/
def statName (entries : List String) (name : String) : Bool :=
  if name = "" || name = "." || name = ".." || isAllSep name then true
  else entries.contains (stripLeadingSep name)

/-- The collision candidate `fmt.Sprintf("%s_%d%s", nameWithoutExt, counter, ext)`. -/
def candidateName (stem ext : String) (n : Nat) : String :=
  stem ++ "_" ++ Nat.repr n ++ ext

/-- The unbounded `for` loop of `generateUniqueFilename`, with enough fuel to reach a free
candidate (the fuel-exhausted branch returns the current candidate unchecked; the proofs
show it is never reached from `generateUniqueFilename`'s call site in the situations the
theorems cover). -/
def uniqueLoop (entries : List String) (stem ext : String) : Nat → Nat → String
  | 0, counter => candidateName stem ext counter
  | fuel + 1, counter =>
    if statName entries (candidateName stem ext counter) then
      uniqueLoop entries stem ext fuel (counter + 1)
    else candidateName stem ext counter

/-- Model of `generateUniqueFilename` from `gallery.go` (identical in `main.go`): take the base
name, keep it if unused, otherwise append `_1`, `_2`, ... before the extension until a
name is free. -/
def generateUniqueFilename (entries : List String) (originalFilename : String) : String :=
  if statName entries (baseName originalFilename) then
    uniqueLoop entries
      (trimSuffix (baseName originalFilename) (extName (baseName originalFilename)))
      (extName (baseName originalFilename)) (entries.length + 1) 1
  else baseName originalFilename

/-- The upload-directory contents after `n` sequential uploads that all present the same
original filename, starting from `entries`; each upload appends the file it creates. -/
def uploadSeq (originalFilename : String) : Nat → List String → List String
  | 0, entries => entries
  | n + 1, entries =>
    let prev := uploadSeq originalFilename n entries
    prev ++ [generateUniqueFilename prev originalFilename]

/-- The names the specification expects `n` same-named sequential uploads to persist:
the original first, then `_1`, `_2`, ... suffixed variants in order. -/
def expectedNames (originalFilename : String) : Nat → List String
  | 0 => []
  | n + 1 =>
    originalFilename ::
      (List.range n).map (fun i =>
        candidateName (trimSuffix originalFilename (extName originalFilename))
          (extName originalFilename) (i + 1))

/-- Decimal digit string of a natural number, structurally: used to reason about
`Nat.repr`, whose core is fuel-based. -/
def decimalDigits (n : Nat) : List Char :=
  if n < 10 then [Nat.digitChar n]
  else decimalDigits (n / 10) ++ [Nat.digitChar (n % 10)]
termination_by n
decreasing_by exact Nat.div_lt_self (by omega) (by omega)

/-- The `PhotoInfo` struct of `gallery.go`.  `time.Time` values are modelled as naturals;
the zero value `0` is `time.Time{}.IsZero()`, meaning "unknown". -/
structure PhotoInfo where
  Path : String
  Name : String
  Uploader : String
  Event : String
  Date : Nat
  PhotoTime : Nat
deriving DecidableEq

/-- The zero `PhotoInfo{}` returned by `loadPhotoMetadata` for missing or corrupt
sidecars. -/
def emptyPhotoInfo : PhotoInfo :=
  { Path := "", Name := "", Uploader := "", Event := "", Date := 0, PhotoTime := 0 }

/-- A JSON value as it appears in a sidecar document: a string field or an RFC-3339
timestamp field (modelled by its instant). -/
inductive JsonValue where
  | str (s : String)
  | timeVal (t : Nat)
deriving DecidableEq

/-- The content of a file in the metadata directory: either a parseable flat JSON
document (a field list) or bytes that fail JSON parsing. -/
inductive Content where
  | jsonDoc (fields : List (String × JsonValue))
  | malformed
deriving DecidableEq

/-- Model of `json.Marshal` of a `PhotoInfo`, with the struct's field tags. -/
def marshalPhotoInfo (info : PhotoInfo) : Content :=
  .jsonDoc [("path", .str info.Path), ("name", .str info.Name),
    ("uploader", .str info.Uploader), ("event", .str info.Event),
    ("date", .timeVal info.Date), ("photo_time", .timeVal info.PhotoTime)]

/-- Read a string field as `json.Unmarshal` does: an absent field leaves the zero value,
a field of the wrong type is an unmarshalling error. -/
def getStrField (fields : List (String × JsonValue)) (key : String) : Option String :=
  match fields.lookup key with
  | none => some ""
  | some (.str s) => some s
  | some _ => none

/-- Read a timestamp field as `json.Unmarshal` does into a `time.Time`. -/
def getTimeField (fields : List (String × JsonValue)) (key : String) : Option Nat :=
  match fields.lookup key with
  | none => some 0
  | some (.timeVal t) => some t
  | some _ => none

/-- Model of `json.Unmarshal` of sidecar bytes into a `PhotoInfo`; `none` is an unmarshalling
error. -/
def unmarshalPhotoInfo : Content → Option PhotoInfo
  | .malformed => none
  | .jsonDoc fields => do
    let p ← getStrField fields "path"
    let n ← getStrField fields "name"
    let u ← getStrField fields "uploader"
    let e ← getStrField fields "event"
    let d ← getTimeField fields "date"
    let pt ← getTimeField fields "photo_time"
    some { Path := p, Name := n, Uploader := u, Event := e, Date := d, PhotoTime := pt }

/-- Model of `loadPhotoMetadata`: read `<metadata>/<filename>.json`; a missing file or an
unmarshalling failure both yield the zero `PhotoInfo{}`, and no error is ever returned
(the return type has no error component, as in the source). -/
def loadPhotoMetadata (metaDir : List (String × Content)) (filename : String) : PhotoInfo :=
  match metaDir.lookup (filename ++ ".json") with
  | none => emptyPhotoInfo
  | some c =>
    match unmarshalPhotoInfo c with
    | none => emptyPhotoInfo
    | some info => info

/-- Model of `savePhotoMetadata`: write the marshalled record to `<metadata>/<filename>.json`
(overwriting; the association list is consulted front-first, so consing shadows). -/
def savePhotoMetadata (metaDir : List (String × Content)) (filename : String)
    (info : PhotoInfo) : List (String × Content) :=
  (filename ++ ".json", marshalPhotoInfo info) :: metaDir

/-- A file of the upload directory: its entry name, its modification time, the photo
time `extractPhotoTime` yields for it (0 when it has none), and whether `image.Decode`
succeeds on its bytes. -/
structure UFile where
  name : String
  modTime : Nat
  exifTime : Nat
  decodable : Bool
deriving DecidableEq

/-- The filesystem as the service sees it: upload directory, metadata directory
(plain files with their contents; the `thumbnails` subdirectory is listed separately). -/
structure FSState where
  uploads : List UFile
  metaDir : List (String × Content)
  thumbs : List String
deriving DecidableEq

/-- Entry names of the upload directory. -/
def uploadNames (s : FSState) : List String := s.uploads.map (fun f => f.name)

/-- Model of `strings.ToLower`, character-wise (identical on ASCII input). -/
def toLowerStr (s : String) : String := (s.data.map Char.toLower).asString

/-- Model of `isImageFile`: recognized image extensions, case-insensitively. -/
def isImageFile (filename : String) : Bool :=
  toLowerStr (extName filename) == ".jpg" || toLowerStr (extName filename) == ".jpeg" ||
    toLowerStr (extName filename) == ".png" || toLowerStr (extName filename) == ".gif" ||
    toLowerStr (extName filename) == ".webp"

/-- Model of `extractPhotoTime` shells out to `exiftool` and falls back to an in-process EXIF
parse; its outcome is a deterministic function of the file's bytes, modelled by the
`exifTime` attribute (0 = no date found). -/
def extractPhotoTime (f : UFile) : Nat := f.exifTime

/-- The effective ordering time of `GetPhotos`: the photo time when known, otherwise the
upload time. -/
def effectiveTime (p : PhotoInfo) : Nat :=
  if p.PhotoTime = 0 then p.Date else p.PhotoTime

/-- One pass of the inner `j` loop of `GetPhotos`'s sort for a fixed slot `i`: the slot
value is swapped with any later element whose key is strictly greater, so the maximum
arrives in the slot and each displaced value settles where the maximum stood. -/
def selectMax (key : PhotoInfo → Nat) : PhotoInfo → List PhotoInfo → PhotoInfo × List PhotoInfo
  | h, [] => (h, [])
  | h, x :: xs =>
    if key h < key x then ((selectMax key x xs).1, h :: (selectMax key x xs).2)
    else ((selectMax key h xs).1, x :: (selectMax key h xs).2)

/-- The outer `i` loop of `GetPhotos`'s sort, fuelled by the list length. -/
def sortDescAux (key : PhotoInfo → Nat) : Nat → List PhotoInfo → List PhotoInfo
  | _, [] => []
  | 0, l => l
  | fuel + 1, h :: t => (selectMax key h t).1 :: sortDescAux key fuel (selectMax key h t).2

/-- The in-place exchange sort of `GetPhotos` (newest effective time first). -/
def sortByEffectiveTimeDesc (l : List PhotoInfo) : List PhotoInfo :=
  sortDescAux effectiveTime l.length l

/-- Model of `GetPhotos`: list the upload directory, load (or synthesize, without persisting) a
record per image file, then sort by effective time, newest first.  `now` is the
`time.Now()` used by the fallback record. -/
def GetPhotos (s : FSState) (now : Nat) : List PhotoInfo :=
  sortByEffectiveTimeDesc <|
    (s.uploads.filter (fun f => isImageFile f.name)).map (fun f =>
      if (loadPhotoMetadata s.metaDir f.name).Path = "" then
        { Path := "/uploads/" ++ f.name, Name := f.name, Uploader := "Unknown",
          Event := "", Date := now, PhotoTime := extractPhotoTime f }
      else loadPhotoMetadata s.metaDir f.name)

/-- Model of `FilterPhotos`: keep records matching the event filter and the uploader filter, an
empty filter imposing no constraint. -/
def FilterPhotos : List PhotoInfo → String → String → List PhotoInfo
  | [], _, _ => []
  | p :: rest, eventFilter, uploaderFilter =>
    if eventFilter ≠ "" ∧ p.Event ≠ eventFilter then
      FilterPhotos rest eventFilter uploaderFilter
    else if uploaderFilter ≠ "" ∧ p.Uploader ≠ uploaderFilter then
      FilterPhotos rest eventFilter uploaderFilter
    else p :: FilterPhotos rest eventFilter uploaderFilter

/-- Sidecar filename for an image name. -/
def sidecarName (imageName : String) : String := imageName ++ ".json"

/-- The entry names of the metadata directory. -/
def metaKeys (metaDir : List (String × Content)) : List String :=
  metaDir.map (fun e => e.1)

/-- The default record `GenerateMissingMetadata` synthesizes for a backfilled image. -/
def defaultMetadata (f : UFile) : PhotoInfo :=
  { Path := "/uploads/" ++ f.name, Name := f.name, Uploader := "Unknown", Event := "",
    Date := f.modTime, PhotoTime := extractPhotoTime f }

/-- The body of `GenerateMissingMetadata`'s loop: skip non-images and files whose sidecar
already exists (`os.Stat` on the sidecar path), otherwise write the default record. -/
def metaStep (acc : List (String × Content)) (f : UFile) : List (String × Content) :=
  if isImageFile f.name && !(metaKeys acc).contains (sidecarName f.name) then
    acc ++ [(sidecarName f.name, marshalPhotoInfo (defaultMetadata f))]
  else acc

/-- Model of `GenerateMissingMetadata`: for every image file of the upload directory whose sidecar
does not yet exist, persist a default record. -/
def GenerateMissingMetadata (s : FSState) : FSState :=
  { s with metaDir := s.uploads.foldl metaStep s.metaDir }

/-- The body of `GenerateMissingThumbnails`'s loop: skip non-images and files whose
thumbnail exists; attempt generation otherwise — a file whose bytes do not decode
produces no thumbnail file (the decode error is logged, the file skipped). -/
def thumbStep (acc : List String) (f : UFile) : List String :=
  if isImageFile f.name && !acc.contains f.name && f.decodable then acc ++ [f.name]
  else acc

/-- Model of `GenerateMissingThumbnails`: for every image file without a thumbnail, attempt
generation. -/
def GenerateMissingThumbnails (s : FSState) : FSState :=
  { s with thumbs := s.uploads.foldl thumbStep s.thumbs }

/-- Model of `CleanupOrphanedMetadata`'s keep-predicate: a metadata entry survives unless it is a
`.json` file whose image no longer exists in the upload directory. -/
def metaKeep (names : List String) (e : String × Content) : Bool :=
  !(".json".data.isSuffixOf e.1.data) || statName names (trimSuffix e.1 ".json")

/-- Model of `CleanupOrphanedMetadata`: remove every `.json` metadata file whose image no longer
exists in the upload directory. -/
def CleanupOrphanedMetadata (s : FSState) : FSState :=
  { s with metaDir := s.metaDir.filter (metaKeep (uploadNames s)) }

/-- Model of `CleanupOrphanedThumbnails`'s keep-predicate: a thumbnail survives unless it is an
image-named file whose source image no longer exists. -/
def thumbKeep (names : List String) (t : String) : Bool :=
  !(isImageFile t) || statName names t

/-- Model of `CleanupOrphanedThumbnails`: remove every image-named thumbnail whose source image no
longer exists. -/
def CleanupOrphanedThumbnails (s : FSState) : FSState :=
  { s with thumbs := s.thumbs.filter (thumbKeep (uploadNames s)) }

/-- The startup reconciliation sequence of `NewGalleryService`, in source order. -/
def reconcile (s : FSState) : FSState :=
  CleanupOrphanedThumbnails (CleanupOrphanedMetadata
    (GenerateMissingThumbnails (GenerateMissingMetadata s)))

/-- The thumbnail bounding size constant (longest side, pixels). -/
def thumbnailSize : Nat := 300

/-- Go integer division, which panics on a zero divisor: `none` models the panic. -/
def goDiv (a b : Nat) : Option Nat := if b = 0 then none else some (a / b)

/-- The aspect-preserving dimension computation of `generateThumbnail`: the longest side
becomes `thumbnailSize` and the other side is scaled by integer division. -/
def computeThumbDims (width height : Nat) : Option (Nat × Nat) :=
  if width > height then
    (goDiv (height * thumbnailSize) width).map (fun nh => (thumbnailSize, nh))
  else
    (goDiv (width * thumbnailSize) height).map (fun nw => (nw, thumbnailSize))

/-- A decoded raster: bounds and a pixel function. -/
structure RawImage where
  width : Nat
  height : Nat
  pix : Nat → Nat → Nat

/-- The source coordinate computation of `resizeImage`:
`srcCoord = (dstCoord * srcDim) / dstDim`, with Go division. -/
def resizeSrcIndex (srcDim dstDim coord : Nat) : Option Nat :=
  goDiv (coord * srcDim) dstDim

/-- Model of `resizeImage`: nearest-neighbour resampling onto a `width × height` canvas; the
double loop only touches destination coordinates inside the canvas. -/
def resizeImage (src : RawImage) (width height : Nat) : RawImage :=
  { width := width, height := height,
    pix := fun x y =>
      if x < width ∧ y < height then
        src.pix ((resizeSrcIndex src.width width x).getD 0)
          ((resizeSrcIndex src.height height y).getD 0)
      else 0 }

/-- How thumbnail generation can fail: the image bytes do not decode, or the dimension
computation divides by zero (a runtime panic, distinct from a returned decode error). -/
inductive ThumbError where
  | decodeError
  | divByZeroPanic
deriving DecidableEq

/-- Model of `generateThumbnail` after the file is opened: decode (`none` = decode failure),
compute the bounded dimensions, resample. -/
def generateThumbnail (decoded : Option RawImage) : Except ThumbError RawImage :=
  match decoded with
  | none => .error .decodeError
  | some img =>
    match computeThumbDims img.width img.height with
    | none => .error .divByZeroPanic
    | some (nw, nh) => .ok (resizeImage img nw nh)

/-- The outcome of the download-all handler: a NotFound error issued before any archive
byte is written, or a streamed ZIP archive with its attachment name and entry list. -/
inductive DownloadResult where
  | notFound
  | zipArchive (filename : String) (entries : List String)
deriving DecidableEq

/-- Model of `strings.ReplaceAll(s, " ", "_")`. -/
def replaceSpaces (s : String) : String :=
  (s.data.map (fun c => if c = ' ' then '_' else c)).asString

/-- The attachment filename `HandleDownloadAll` generates. -/
def zipFileName (eventFilter uploaderFilter timestamp : String) : String :=
  if eventFilter ≠ "" ∨ uploaderFilter ≠ "" then
    let s1 := if eventFilter ≠ "" then "_" ++ replaceSpaces eventFilter else ""
    let s2 := if uploaderFilter ≠ "" then "_" ++ replaceSpaces uploaderFilter else ""
    "gallery_photos" ++ s1 ++ s2 ++ "_" ++ timestamp ++ ".zip"
  else "gallery_photos_" ++ timestamp ++ ".zip"

/-- The entries `CreateZipArchive` writes: for each record, the base of its path; a file
that fails to open is logged and skipped. -/
def zipEntries (s : FSState) (photos : List PhotoInfo) : List String :=
  photos.filterMap (fun p =>
    if statName (uploadNames s) (baseName p.Path) then some (baseName p.Path) else none)

/-- Model of `HandleDownloadAll`: load and filter the catalog; zero matches is a 404 issued before
the archive is opened, otherwise the archive streams. -/
def HandleDownloadAll (s : FSState) (now : Nat) (timestamp : String)
    (eventFilter uploaderFilter : String) : DownloadResult :=
  if (FilterPhotos (GetPhotos s now) eventFilter uploaderFilter).length = 0 then .notFound
  else .zipArchive (zipFileName eventFilter uploaderFilter timestamp)
    (zipEntries s (FilterPhotos (GetPhotos s now) eventFilter uploaderFilter))

/-! ### Concrete fixtures used by the specification's worked examples -/

/-- A photo tagged `(event A, uploader X)`. -/
def photoAX : PhotoInfo :=
  { Path := "/uploads/ax.jpg", Name := "ax.jpg", Uploader := "X", Event := "A",
    Date := 1, PhotoTime := 0 }

/-- A photo tagged `(event A, uploader Y)`. -/
def photoAY : PhotoInfo :=
  { Path := "/uploads/ay.jpg", Name := "ay.jpg", Uploader := "Y", Event := "A",
    Date := 2, PhotoTime := 0 }

/-- A photo tagged `(event B, uploader X)`. -/
def photoBX : PhotoInfo :=
  { Path := "/uploads/bx.jpg", Name := "bx.jpg", Uploader := "X", Event := "B",
    Date := 3, PhotoTime := 0 }

/-- Record A of the sort scenario: `photoTime = t1 = 1`. -/
def recSortA : PhotoInfo :=
  { Path := "/uploads/a.jpg", Name := "a.jpg", Uploader := "X", Event := "E",
    Date := 9, PhotoTime := 1 }

/-- Record B of the sort scenario: `photoTime` unknown, `uploadTime = t2 = 2`. -/
def recSortB : PhotoInfo :=
  { Path := "/uploads/b.jpg", Name := "b.jpg", Uploader := "X", Event := "E",
    Date := 2, PhotoTime := 0 }

/-- Record C of the sort scenario: `photoTime = t3 = 3`. -/
def recSortC : PhotoInfo :=
  { Path := "/uploads/c.jpg", Name := "c.jpg", Uploader := "X", Event := "E",
    Date := 9, PhotoTime := 3 }

/-- The directory state of the sort scenario: three images with persisted sidecars. -/
def exampleSortState : FSState :=
  { uploads := [{ name := "a.jpg", modTime := 0, exifTime := 0, decodable := true },
      { name := "b.jpg", modTime := 0, exifTime := 0, decodable := true },
      { name := "c.jpg", modTime := 0, exifTime := 0, decodable := true }],
    metaDir := [("a.jpg.json", marshalPhotoInfo recSortA),
      ("b.jpg.json", marshalPhotoInfo recSortB),
      ("c.jpg.json", marshalPhotoInfo recSortC)],
    thumbs := [] }

/-- A small consistent state for the download-all scenario: one image with a matching
sidecar tagged `(event A, uploader X)`. -/
def exampleDLState : FSState :=
  { uploads := [{ name := "a.jpg", modTime := 5, exifTime := 0, decodable := true }],
    metaDir := [("a.jpg.json", marshalPhotoInfo
      { Path := "/uploads/a.jpg", Name := "a.jpg", Uploader := "X", Event := "A",
        Date := 1, PhotoTime := 0 })],
    thumbs := [] }

/-- A state exercising every reconciliation step: an image lacking metadata and
thumbnail, an undecodable image, an orphaned sidecar and an orphaned thumbnail. -/
def exampleReconState : FSState :=
  { uploads := [{ name := "a.jpg", modTime := 7, exifTime := 4, decodable := true },
      { name := "broken.png", modTime := 8, exifTime := 0, decodable := false },
      { name := "notes.txt", modTime := 9, exifTime := 0, decodable := false }],
    metaDir := [("gone.jpg.json", Content.malformed), ("readme", Content.malformed)],
    thumbs := ["gone.jpg", "keepme.dat"] }

/-! ### Auxiliary lemmas: decimal digit strings -/

theorem digitChar_ne_sep (m : Nat) : Nat.digitChar m ≠ '/' := by
  by_cases h : m < 16
  · interval_cases m <;> decide
  · have h0 : Nat.digitChar m = '*' := by
      simp only [Nat.digitChar,
        if_neg (show ¬ m = 0 by omega), if_neg (show ¬ m = 1 by omega),
        if_neg (show ¬ m = 2 by omega), if_neg (show ¬ m = 3 by omega),
        if_neg (show ¬ m = 4 by omega), if_neg (show ¬ m = 5 by omega),
        if_neg (show ¬ m = 6 by omega), if_neg (show ¬ m = 7 by omega),
        if_neg (show ¬ m = 8 by omega), if_neg (show ¬ m = 9 by omega),
        if_neg (show ¬ m = 10 by omega), if_neg (show ¬ m = 11 by omega),
        if_neg (show ¬ m = 12 by omega), if_neg (show ¬ m = 13 by omega),
        if_neg (show ¬ m = 14 by omega), if_neg (show ¬ m = 15 by omega)]
    rw [h0]
    decide

theorem digitChar_inj_lt10 : ∀ a < 10, ∀ b < 10, Nat.digitChar a = Nat.digitChar b → a = b := by
  decide

theorem decimalDigits_small {n : Nat} (h : n < 10) : decimalDigits n = [Nat.digitChar n] := by
  rw [decimalDigits]
  simp [h]

theorem decimalDigits_large {n : Nat} (h : ¬ n < 10) :
    decimalDigits n = decimalDigits (n / 10) ++ [Nat.digitChar (n % 10)] := by
  rw [decimalDigits]
  simp [h]

theorem decimalDigits_ne_nil (n : Nat) : decimalDigits n ≠ [] := by
  by_cases h : n < 10
  · simp [decimalDigits_small h]
  · simp [decimalDigits_large h]

theorem sep_not_mem_decimalDigits (n : Nat) : '/' ∉ decimalDigits n := by
  induction n using Nat.strong_induction_on with
  | _ n ih =>
    by_cases h : n < 10
    · rw [decimalDigits_small h]
      simp [Ne.symm (digitChar_ne_sep n)]
    · rw [decimalDigits_large h]
      intro hmem
      rcases List.mem_append.mp hmem with h1 | h2
      · exact ih (n / 10) (Nat.div_lt_self (by omega) (by omega)) h1
      · exact digitChar_ne_sep (n % 10) (List.mem_singleton.mp h2).symm

theorem toDigitsCore_append (fuel : Nat) : ∀ (n : Nat) (ds : List Char),
    Nat.toDigitsCore 10 fuel n ds = Nat.toDigitsCore 10 fuel n [] ++ ds := by
  induction fuel with
  | zero => intro n ds; simp [Nat.toDigitsCore]
  | succ fuel ih =>
    intro n ds
    by_cases h : n / 10 = 0 <;> simp only [Nat.toDigitsCore, h, if_true, if_false]
    · simp
    · rw [ih (n / 10) [Nat.digitChar (n % 10)], ih (n / 10) (Nat.digitChar (n % 10) :: ds)]
      simp

theorem toDigitsCore_eq_decimalDigits (fuel : Nat) : ∀ n : Nat, 0 < fuel → n < 10 ^ fuel →
    Nat.toDigitsCore 10 fuel n [] = decimalDigits n := by
  induction fuel with
  | zero => omega
  | succ fuel ih =>
    intro n _ hlt
    by_cases h : n / 10 = 0
    · have hn : n < 10 := by omega
      simp only [Nat.toDigitsCore, h, if_true]
      rw [decimalDigits]
      simp [if_pos hn, Nat.mod_eq_of_lt hn]
    · have hten : 10 ≤ n := by omega
      have hfuel : 0 < fuel := by
        rcases Nat.eq_zero_or_pos fuel with hf | hf
        · subst hf
          norm_num at hlt
          omega
        · exact hf
      have hdiv : n / 10 < 10 ^ fuel := by
        apply (Nat.div_lt_iff_lt_mul (by omega : 0 < 10)).mpr
        calc n < 10 ^ (fuel + 1) := hlt
        _ = 10 ^ fuel * 10 := by rw [Nat.pow_succ]
      simp only [Nat.toDigitsCore, h, if_false]
      rw [toDigitsCore_append, ih (n / 10) hfuel hdiv]
      rw [decimalDigits_large (by omega : ¬ n < 10)]

theorem repr_data_eq_decimalDigits (n : Nat) : (Nat.repr n).data = decimalDigits n := by
  show (Nat.toDigits 10 n).asString.data = decimalDigits n
  unfold Nat.toDigits
  have hlt : n < 10 ^ (n + 1) := by
    calc n < 2 ^ n := Nat.lt_two_pow n
    _ ≤ 10 ^ n := Nat.pow_le_pow_left (by omega) n
    _ ≤ 10 ^ (n + 1) := Nat.pow_le_pow_right (by omega) (by omega)
  rw [show ((Nat.toDigitsCore 10 (n + 1) n []).asString.data = Nat.toDigitsCore 10 (n + 1) n []) from rfl]
  exact toDigitsCore_eq_decimalDigits (n + 1) n (by omega) hlt

theorem decimalDigits_inj : ∀ a b : Nat, decimalDigits a = decimalDigits b → a = b := by
  intro a
  induction a using Nat.strong_induction_on with
  | _ a ih =>
    intro b heq
    by_cases ha : a < 10 <;> by_cases hb : b < 10
    · rw [decimalDigits_small ha, decimalDigits_small hb] at heq
      exact digitChar_inj_lt10 a ha b hb (List.singleton_inj.mp heq)
    · rw [decimalDigits_small ha, decimalDigits_large hb] at heq
      have hlen := congrArg List.length heq
      simp only [List.length_singleton, List.length_append] at hlen
      have hz : (decimalDigits (b / 10)).length = 0 := by omega
      exact absurd (List.length_eq_zero.mp hz) (decimalDigits_ne_nil (b / 10))
    · rw [decimalDigits_large ha, decimalDigits_small hb] at heq
      have hlen := congrArg List.length heq
      simp only [List.length_singleton, List.length_append] at hlen
      have hz : (decimalDigits (a / 10)).length = 0 := by omega
      exact absurd (List.length_eq_zero.mp hz) (decimalDigits_ne_nil (a / 10))
    · rw [decimalDigits_large ha, decimalDigits_large hb] at heq
      have hparts := List.append_inj' heq (by rfl)
      have hdiv := ih (a / 10) (Nat.div_lt_self (by omega) (by omega)) (b / 10) hparts.1
      have hmod := digitChar_inj_lt10 (a % 10) (by omega) (b % 10) (by omega)
        (List.singleton_inj.mp hparts.2)
      omega

theorem repr_inj : ∀ a b : Nat, Nat.repr a = Nat.repr b → a = b := by
  intro a b h
  exact decimalDigits_inj a b
    (by rw [← repr_data_eq_decimalDigits, ← repr_data_eq_decimalDigits, h])

theorem sep_not_mem_repr (n : Nat) : '/' ∉ (Nat.repr n).data := by
  rw [repr_data_eq_decimalDigits]
  exact sep_not_mem_decimalDigits n

theorem repr_data_ne_nil (n : Nat) : (Nat.repr n).data ≠ [] := by
  rw [repr_data_eq_decimalDigits]
  exact decimalDigits_ne_nil n

/-! ### Auxiliary lemmas: strings and path manipulation -/

theorem asString_data (l : List Char) : (List.asString l).data = l := rfl

theorem data_ne_nil {s : String} (h : s ≠ "") : s.data ≠ [] := by
  intro hd
  exact h (String.ext hd)

theorem dropWhile_sep_eq_self {l : List Char} (h : '/' ∉ l) :
    l.dropWhile (fun c => c = '/') = l := by
  cases l with
  | nil => rfl
  | cons c cs =>
    have hc : ¬ (c = '/') := fun hcc => h (hcc ▸ List.mem_cons_self c cs)
    simp [List.dropWhile_cons, hc]

theorem afterLastSep_aux : ∀ (l acc : List Char), '/' ∉ l →
    l.foldl (fun acc c => if c = '/' then [] else acc ++ [c]) acc = acc ++ l := by
  intro l
  induction l with
  | nil => intro acc _; simp
  | cons c cs ih =>
    intro acc h
    have hc : ¬ (c = '/') := fun hcc => h (hcc ▸ List.mem_cons_self c cs)
    simp only [List.foldl_cons, if_neg hc]
    rw [ih (acc ++ [c]) (fun hm => h (List.mem_cons_of_mem c hm))]
    simp

theorem afterLastSep_no_sep {l : List Char} (h : '/' ∉ l) : afterLastSep l = l := by
  unfold afterLastSep
  simpa using afterLastSep_aux l [] h

theorem afterLastSep_append_sep (l1 l2 : List Char) :
    afterLastSep (l1 ++ '/' :: l2) = afterLastSep l2 := by
  unfold afterLastSep
  rw [List.foldl_append]
  simp

theorem sep_not_mem_afterLastSep (l : List Char) : '/' ∉ afterLastSep l := by
  have key : ∀ (l acc : List Char), '/' ∉ acc →
      '/' ∉ l.foldl (fun acc c => if c = '/' then [] else acc ++ [c]) acc := by
    intro l
    induction l with
    | nil => intro acc h; simpa using h
    | cons c cs ih =>
      intro acc h
      simp only [List.foldl_cons]
      by_cases hc : c = '/'
      · rw [if_pos hc]
        exact ih [] (by simp)
      · rw [if_neg hc]
        refine ih (acc ++ [c]) ?_
        intro hm
        rcases List.mem_append.mp hm with h1 | h2
        · exact h h1
        · exact hc (List.mem_singleton.mp h2).symm
  exact key l [] (by simp)

theorem baseName_plain {o : String} (h : PlainName o) : baseName o = o := by
  obtain ⟨h1, h2, _, _⟩ := h
  have hrev : '/' ∉ o.data.reverse := fun hm => h2 (List.mem_reverse.mp hm)
  have hdrop : dropTrailingSep o.data = o.data := by
    unfold dropTrailingSep
    rw [dropWhile_sep_eq_self hrev, List.reverse_reverse]
  unfold baseName
  rw [if_neg h1, hdrop, afterLastSep_no_sep h2, if_neg (data_ne_nil h1)]
  exact String.ext rfl

theorem baseName_cases (o : String) : baseName o = "/" ∨ '/' ∉ (baseName o).data := by
  unfold baseName
  by_cases h0 : o = ""
  · right
    rw [if_pos h0]
    decide
  · rw [if_neg h0]
    by_cases hseg : afterLastSep (dropTrailingSep o.data) = []
    · left
      rw [if_pos hseg]
    · right
      rw [if_neg hseg]
      exact sep_not_mem_afterLastSep _

theorem dropTrailingSep_append {l1 l2 : List Char} (hne : l2 ≠ []) (hsep : '/' ∉ l2) :
    dropTrailingSep (l1 ++ l2) = l1 ++ l2 := by
  unfold dropTrailingSep
  cases hrev : l2.reverse with
  | nil => exact absurd (by simpa using congrArg List.reverse hrev) hne
  | cons c cs =>
    have hcmem : c ∈ l2 := by
      have : c ∈ l2.reverse := by
        rw [hrev]
        exact List.mem_cons_self c cs
      exact List.mem_reverse.mp this
    have hc : ¬ (c = '/') := fun hcc => hsep (hcc ▸ hcmem)
    rw [List.reverse_append, hrev]
    rw [show (c :: cs ++ l1.reverse : List Char) = c :: (cs ++ l1.reverse) from rfl]
    rw [List.dropWhile_cons, if_neg (by simpa using hc)]
    rw [show (c :: (cs ++ l1.reverse) : List Char) = (c :: cs) ++ l1.reverse from rfl]
    rw [List.reverse_append, List.reverse_reverse, ← hrev, List.reverse_reverse]

theorem baseName_slash_append {n : String} (h : PlainName n) :
    baseName ("/uploads/" ++ n) = n := by
  obtain ⟨h1, h2, _, _⟩ := h
  have hne : ("/uploads/" ++ n) ≠ "" := by
    intro hc
    have hd := congrArg String.data hc
    rw [String.data_append] at hd
    exact absurd (List.append_eq_nil.mp hd).1 (by decide)
  unfold baseName
  rw [if_neg hne, String.data_append]
  rw [dropTrailingSep_append (data_ne_nil h1) h2]
  rw [show ("/uploads/".data = "/uploads".data ++ ['/']) from rfl]
  rw [List.append_assoc]
  rw [show ((['/'] ++ n.data : List Char) = '/' :: n.data) from rfl]
  rw [afterLastSep_append_sep, afterLastSep_no_sep h2, if_neg (data_ne_nil h1)]
  exact String.ext rfl

theorem takeWhile_dot_prefix : ∀ l : List Char, l.any (fun c => c = '.') = true →
    (l.takeWhile (fun c => c ≠ '.') ++ ['.']) <+: l := by
  intro l
  induction l with
  | nil => intro h; simp at h
  | cons c cs ih =>
    intro h
    by_cases hc : c = '.'
    · subst hc
      rw [List.takeWhile_cons, if_neg (by simp)]
      simp
    · rw [List.takeWhile_cons, if_pos (by simpa using hc)]
      have hcs : cs.any (fun c => c = '.') = true := by
        rcases List.any_eq_true.mp h with ⟨x, hx, hxd⟩
        rcases List.mem_cons.mp hx with rfl | hxcs
        · exact absurd (by simpa using hxd) hc
        · exact List.any_eq_true.mpr ⟨x, hxcs, hxd⟩
      rw [show ((c :: cs.takeWhile (fun c => c ≠ '.')) ++ ['.'] : List Char) =
        c :: (cs.takeWhile (fun c => c ≠ '.') ++ ['.']) from rfl]
      exact (List.prefix_cons_inj c).mpr (ih hcs)

theorem extName_suffix (b : String) : (extName b).data <:+ b.data := by
  unfold extName
  by_cases h : (b.data.reverse.takeWhile (fun c => c ≠ '/')).any (fun c => c = '.')
  · rw [if_pos h]
    have h1 := takeWhile_dot_prefix _ h
    have h2 : (b.data.reverse.takeWhile (fun c => c ≠ '/')) <+: b.data.reverse :=
      List.takeWhile_prefix _
    have h3 := h1.trans h2
    have h4 := List.reverse_suffix.mpr h3
    rwa [List.reverse_reverse] at h4
  · rw [if_neg h]
    exact List.nil_suffix

theorem stem_ext_eq (b : String) : trimSuffix b (extName b) ++ extName b = b := by
  obtain ⟨pre, hpre⟩ := extName_suffix b
  unfold trimSuffix
  rw [if_pos (List.isSuffixOf_iff_suffix.mpr ⟨pre, hpre⟩)]
  apply String.ext
  rw [String.data_append, asString_data]
  have hlen : b.data.length = pre.length + (extName b).data.length := by
    rw [← hpre]
    simp
  rw [show b.data.length - (extName b).data.length = pre.length by omega]
  rw [← hpre, List.take_left]

theorem trimSuffix_subset (b e : String) : ∀ c ∈ (trimSuffix b e).data, c ∈ b.data := by
  unfold trimSuffix
  by_cases h : e.data.isSuffixOf b.data
  · rw [if_pos h]
    intro c hc
    exact List.take_subset _ _ (by simpa using hc)
  · rw [if_neg h]
    intro c hc
    exact hc

theorem extName_subset (b : String) : ∀ c ∈ (extName b).data, c ∈ b.data :=
  fun _ hc => (extName_suffix b).subset hc

theorem stripLeadingSep_no_sep {n : String} (h : '/' ∉ n.data) : stripLeadingSep n = n := by
  unfold stripLeadingSep
  rw [dropWhile_sep_eq_self h]
  exact String.ext rfl

theorem isAllSep_false_of_plain {n : String} (h1 : n ≠ "") (h2 : '/' ∉ n.data) :
    isAllSep n = false := by
  unfold isAllSep
  cases hd : n.data with
  | nil => exact absurd (String.ext hd) h1
  | cons c cs =>
    have hc : ¬ (c = '/') := fun hcc => h2 (hcc ▸ (hd ▸ List.mem_cons_self c cs))
    simp [hd, hc]

theorem statName_plain {n : String} (h : PlainName n) (entries : List String) :
    statName entries n = true ↔ n ∈ entries := by
  obtain ⟨h1, h2, h3, h4⟩ := h
  simp [statName, isAllSep_false_of_plain h1 h2, h1, h3, h4, stripLeadingSep_no_sep h2]

/-! ### Auxiliary lemmas: collision candidates and the uniquification loop -/

theorem candidateName_data (stem ext : String) (n : Nat) :
    (candidateName stem ext n).data = stem.data ++ '_' :: ((Nat.repr n).data ++ ext.data) := by
  unfold candidateName
  rw [String.data_append, String.data_append, String.data_append]
  simp

theorem candidateName_inj {stem ext : String} {m n : Nat}
    (h : candidateName stem ext m = candidateName stem ext n) : m = n := by
  have hd := congrArg String.data h
  rw [candidateName_data, candidateName_data] at hd
  have h1 := List.append_cancel_left hd
  simp only [List.cons.injEq, true_and] at h1
  exact repr_inj m n (String.ext (List.append_cancel_right h1))

theorem candidateName_has_underscore (stem ext : String) (n : Nat) :
    '_' ∈ (candidateName stem ext n).data := by
  rw [candidateName_data]
  simp

theorem sep_not_mem_candidateName {stem ext : String} (hs : '/' ∉ stem.data)
    (he : '/' ∉ ext.data) (n : Nat) : '/' ∉ (candidateName stem ext n).data := by
  rw [candidateName_data]
  intro hm
  rcases List.mem_append.mp hm with h1 | h2
  · exact hs h1
  · rcases List.mem_cons.mp h2 with h3 | h4
    · exact (by decide : ('/' : Char) ≠ '_') h3
    · rcases List.mem_append.mp h4 with h5 | h6
      · exact sep_not_mem_repr n h5
      · exact he h6

theorem candidateName_length (stem ext : String) (n : Nat) :
    (stem ++ ext).data.length < (candidateName stem ext n).data.length := by
  rw [candidateName_data, String.data_append]
  have hrepr : 0 < (Nat.repr n).data.length := List.length_pos.mpr (repr_data_ne_nil n)
  simp only [List.length_append, List.length_cons]
  omega

theorem candidateName_ne_base {stem ext b : String} (hb : stem ++ ext = b) (n : Nat) :
    candidateName stem ext n ≠ b := by
  intro h
  have hlt := candidateName_length stem ext n
  rw [hb, ← h] at hlt
  exact lt_irrefl _ hlt

theorem candidateName_plain {stem ext : String} (hs : '/' ∉ stem.data) (he : '/' ∉ ext.data)
    (n : Nat) : PlainName (candidateName stem ext n) := by
  refine ⟨?_, sep_not_mem_candidateName hs he n, ?_, ?_⟩
  · intro hc
    have h := candidateName_has_underscore stem ext n
    rw [congrArg String.data hc] at h
    exact absurd h (by decide)
  · intro hc
    have h := candidateName_has_underscore stem ext n
    rw [congrArg String.data hc] at h
    exact absurd h (by decide)
  · intro hc
    have h := candidateName_has_underscore stem ext n
    rw [congrArg String.data hc] at h
    exact absurd h (by decide)

theorem uniqueLoop_spec (entries : List String) (stem ext : String) :
    ∀ (fuel c m : Nat), c ≤ m → m < c + fuel →
    (∀ j, c ≤ j → j < m → statName entries (candidateName stem ext j) = true) →
    statName entries (candidateName stem ext m) = false →
    uniqueLoop entries stem ext fuel c = candidateName stem ext m := by
  intro fuel
  induction fuel with
  | zero => intro c m h1 h2 _ _; omega
  | succ fuel ih =>
    intro c m h1 h2 hall hm
    by_cases hc : c = m
    · subst hc
      unfold uniqueLoop
      rw [hm]
      simp
    · have hcm : c < m := by omega
      unfold uniqueLoop
      rw [hall c (le_refl c) hcm]
      simp only [if_true]
      exact ih (c + 1) m (by omega) (by omega) (fun j hj1 hj2 => hall j (by omega) hj2) hm

theorem uniqueLoop_is_candidate (entries : List String) (stem ext : String) :
    ∀ (fuel c : Nat), ∃ m, uniqueLoop entries stem ext fuel c = candidateName stem ext m := by
  intro fuel
  induction fuel with
  | zero => intro c; exact ⟨c, rfl⟩
  | succ fuel ih =>
    intro c
    unfold uniqueLoop
    cases hst : statName entries (candidateName stem ext c) with
    | true => simpa using ih (c + 1)
    | false => exact ⟨c, by simp⟩

/-! ### Auxiliary lemmas: the expected sequence of persisted names -/

theorem expectedNames_length (o : String) (n : Nat) : (expectedNames o n).length = n := by
  cases n with
  | zero => rfl
  | succ k => simp [expectedNames]

theorem expectedNames_succ (o : String) (n : Nat) :
    expectedNames o (n + 1) = expectedNames o n ++
      [if n = 0 then o
       else candidateName (trimSuffix o (extName o)) (extName o) n] := by
  cases n with
  | zero => simp [expectedNames]
  | succ k =>
    simp only [expectedNames, List.range_succ, List.map_append, List.map_cons, List.map_nil]
    simp

theorem mem_expectedNames {o x : String} {n : Nat} :
    x ∈ expectedNames o n ↔ (1 ≤ n ∧ x = o) ∨
      ∃ j, 1 ≤ j ∧ j < n ∧ x = candidateName (trimSuffix o (extName o)) (extName o) j := by
  cases n with
  | zero => simp [expectedNames]
  | succ k =>
    simp only [expectedNames, List.mem_cons, List.mem_map, List.mem_range]
    constructor
    · rintro (rfl | ⟨i, hi, rfl⟩)
      · exact Or.inl ⟨by omega, rfl⟩
      · exact Or.inr ⟨i + 1, by omega, by omega, rfl⟩
    · rintro (⟨_, rfl⟩ | ⟨j, hj1, hj2, rfl⟩)
      · exact Or.inl rfl
      · exact Or.inr ⟨j - 1, by omega, by rw [show j - 1 + 1 = j by omega]⟩

theorem cand_not_mem_expectedNames {o : String} {m n : Nat} (_hm : 1 ≤ m) (hn : n ≤ m) :
    candidateName (trimSuffix o (extName o)) (extName o) m ∉ expectedNames o n := by
  intro hmem
  rcases mem_expectedNames.mp hmem with ⟨_, heq⟩ | ⟨j, hj1, hj2, heq⟩
  · exact candidateName_ne_base (stem_ext_eq o) m heq
  · have := candidateName_inj heq.symm
    omega

theorem expectedNames_nodup (o : String) (n : Nat) : (expectedNames o n).Nodup := by
  cases n with
  | zero => simp [expectedNames]
  | succ k =>
    simp only [expectedNames]
    refine List.nodup_cons.mpr ⟨?_, ?_⟩
    · intro hmem
      rcases List.mem_map.mp hmem with ⟨i, _, hi⟩
      exact candidateName_ne_base (stem_ext_eq o) (i + 1) hi
    · refine List.Nodup.map ?_ (List.nodup_range k)
      intro a b hab
      have := candidateName_inj hab
      omega

theorem uploadSeq_spec (o : String) (entries : List String) (hp : PlainName o)
    (h0 : o ∉ entries)
    (hc : ∀ k, 1 ≤ k → candidateName (trimSuffix o (extName o)) (extName o) k ∉ entries) :
    ∀ n, uploadSeq o n entries = entries ++ expectedNames o n := by
  have hsep_stem : '/' ∉ (trimSuffix o (extName o)).data :=
    fun hm => hp.2.1 (trimSuffix_subset o (extName o) _ hm)
  have hsep_ext : '/' ∉ (extName o).data := fun hm => hp.2.1 (extName_subset o _ hm)
  have hcand_plain : ∀ j : Nat,
      PlainName (candidateName (trimSuffix o (extName o)) (extName o) j) :=
    fun j => candidateName_plain hsep_stem hsep_ext j
  intro n
  induction n with
  | zero => simp [uploadSeq, expectedNames]
  | succ n ih =>
    show uploadSeq o n entries ++ [generateUniqueFilename (uploadSeq o n entries) o] = _
    rw [ih]
    cases n with
    | zero =>
      rw [show expectedNames o 0 = [] from rfl, List.append_nil]
      have hstat : statName entries (baseName o) = false := by
        rw [baseName_plain hp]
        rw [← Bool.not_eq_true]
        intro h
        exact h0 ((statName_plain hp entries).mp h)
      unfold generateUniqueFilename
      rw [hstat]
      simp only [Bool.false_eq_true, if_false]
      rw [baseName_plain hp]
      simp [expectedNames]
    | succ k =>
      have hmem_o : o ∈ entries ++ expectedNames o (k + 1) := by
        apply List.mem_append_right
        exact mem_expectedNames.mpr (Or.inl ⟨by omega, rfl⟩)
      have hstat : statName (entries ++ expectedNames o (k + 1)) (baseName o) = true := by
        rw [baseName_plain hp]
        exact (statName_plain hp _).mpr hmem_o
      unfold generateUniqueFilename
      rw [hstat]
      simp only [if_true]
      rw [baseName_plain hp]
      have hloop : uniqueLoop (entries ++ expectedNames o (k + 1))
          (trimSuffix o (extName o)) (extName o)
          ((entries ++ expectedNames o (k + 1)).length + 1) 1 =
          candidateName (trimSuffix o (extName o)) (extName o) (k + 1) := by
        apply uniqueLoop_spec
        · omega
        · have := expectedNames_length o (k + 1)
          simp only [List.length_append]
          omega
        · intro j hj1 hj2
          apply (statName_plain (hcand_plain j) _).mpr
          apply List.mem_append_right
          exact mem_expectedNames.mpr (Or.inr ⟨j, hj1, hj2, rfl⟩)
        · rw [← Bool.not_eq_true]
          intro hst
          have hmem := (statName_plain (hcand_plain (k + 1)) _).mp hst
          rcases List.mem_append.mp hmem with h1 | h2
          · exact hc (k + 1) (by omega) h1
          · exact cand_not_mem_expectedNames (by omega) (le_refl (k + 1)) h2
      rw [hloop, expectedNames_succ o (k + 1)]
      simp [List.append_assoc]

/-- C1: for every sequence of sequential uploads presenting the same (plain) original
filename into a directory containing neither that name nor any of its suffixed
candidates, the unique-filename assignment gives the first upload the original name and
each subsequent upload the `_N` suffixed name with `N` the smallest positive integer
producing an unused name — so the persisted names are exactly the original followed by
`_1`, `_2`, ... in first-come order, they are pairwise distinct, and no upload ever
reuses (overwrites) a name already present at the time it is assigned. -/
theorem c1_sequential_uploads_unique_filenames (o : String) (entries : List String)
    (n : Nat) (hp : PlainName o) (h0 : o ∉ entries)
    (hc : ∀ k, 1 ≤ k → candidateName (trimSuffix o (extName o)) (extName o) k ∉ entries) :
    uploadSeq o n entries = entries ++ expectedNames o n ∧
    (expectedNames o n).Nodup ∧
    (∀ k, k < n →
      generateUniqueFilename (uploadSeq o k entries) o ∉ uploadSeq o k entries) := by
  refine ⟨uploadSeq_spec o entries hp h0 hc n, expectedNames_nodup o n, ?_⟩
  intro k _
  have hk := uploadSeq_spec o entries hp h0 hc k
  have hk1 := uploadSeq_spec o entries hp h0 hc (k + 1)
  have hstep : uploadSeq o (k + 1) entries =
      uploadSeq o k entries ++ [generateUniqueFilename (uploadSeq o k entries) o] := rfl
  rw [hk, hk1, expectedNames_succ o k, ← List.append_assoc] at hstep
  have hgen := List.append_inj_right hstep.symm rfl
  have hgen2 : generateUniqueFilename (entries ++ expectedNames o k) o =
      (if k = 0 then o else candidateName (trimSuffix o (extName o)) (extName o) k) := by
    have h2 := congrArg (fun l => l.headI) hgen
    simp only [List.headI] at h2
    exact h2
  rw [hk, hgen2]
  by_cases hk0 : k = 0
  · subst hk0
    rw [if_pos rfl]
    intro hmem
    rcases List.mem_append.mp hmem with h1 | h2
    · exact h0 h1
    · rcases mem_expectedNames.mp h2 with ⟨hn1, _⟩ | ⟨j, _, hj2, _⟩ <;> omega
  · rw [if_neg hk0]
    intro hmem
    rcases List.mem_append.mp hmem with h1 | h2
    · exact hc k (by omega) h1
    · exact cand_not_mem_expectedNames (by omega) (le_refl k) h2

/-- C1 witness: three sequential uploads of `photo.jpg` into an empty directory persist
`photo.jpg`, `photo_1.jpg`, `photo_2.jpg`, pairwise distinct. -/
theorem c1_witness :
    uploadSeq "photo.jpg" 3 [] = ["photo.jpg", "photo_1.jpg", "photo_2.jpg"] ∧
    (expectedNames "photo.jpg" 3).Nodup := by
  have h := c1_sequential_uploads_unique_filenames "photo.jpg" [] 3 (by decide)
    (by simp) (fun k _ => by simp)
  refine ⟨?_, h.2.1⟩
  rw [h.1]
  decide

/-- C10 counterexample: the original filename `"/"` (a name consisting only of path
separators) is assigned the storage filename `"/_1"`, which contains a path separator —
refuting the claim that the assigned name never contains a separator. -/
theorem c10_counterexample :
    generateUniqueFilename [] "/" = "/_1" ∧
    '/' ∈ (generateUniqueFilename [] "/").data := by
  constructor <;> decide

/-- C10 amended: for every upload-directory state and every original filename whose base
name is not `"/"` (i.e. the original does not consist solely of path separators), the
storage filename assigned by `generateUniqueFilename` contains no path separator.  (For
an all-separator original the assigned name is `"/_N"`; `filepath.Join` still cleans the
leading separator away, so even then the file is created directly inside the upload
directory.) -/
theorem c10_no_separator_in_assigned_name (entries : List String) (o : String)
    (h : baseName o ≠ "/") : '/' ∉ (generateUniqueFilename entries o).data := by
  have hb : '/' ∉ (baseName o).data := (baseName_cases o).resolve_left h
  unfold generateUniqueFilename
  cases hs : statName entries (baseName o) with
  | true =>
    simp only [if_true]
    obtain ⟨m, hm⟩ := uniqueLoop_is_candidate entries
      (trimSuffix (baseName o) (extName (baseName o))) (extName (baseName o))
      (entries.length + 1) 1
    rw [hm]
    apply sep_not_mem_candidateName
    · intro hmem
      exact hb (trimSuffix_subset _ _ _ hmem)
    · intro hmem
      exact hb (extName_subset _ _ hmem)
  | false =>
    simp only [Bool.false_eq_true, if_false]
    exact hb

/-- C10 witness: an original with directory components is stored under its base name,
free of separators. -/
theorem c10_witness : '/' ∉ (generateUniqueFilename [] "../evil.jpg").data :=
  c10_no_separator_in_assigned_name [] "../evil.jpg" (by decide)

/-! ### Metadata sidecar claims -/

/-- C4: `loadPhotoMetadata` on a filename whose sidecar does not exist and on one whose
sidecar exists but fails to unmarshal both return the same zero `PhotoInfo{}` sentinel;
the function's return type carries no error, so neither case surfaces an error to the
caller. -/
theorem c4_load_missing_and_corrupt_equivalent (metaDir : List (String × Content))
    (filename : String) :
    (metaDir.lookup (filename ++ ".json") = none →
      loadPhotoMetadata metaDir filename = emptyPhotoInfo) ∧
    (∀ c, metaDir.lookup (filename ++ ".json") = some c → unmarshalPhotoInfo c = none →
      loadPhotoMetadata metaDir filename = emptyPhotoInfo) := by
  constructor
  · intro h
    unfold loadPhotoMetadata
    rw [h]
  · intro c h1 h2
    unfold loadPhotoMetadata
    rw [h1]
    simp only [h2]

/-- C4 witness: an absent sidecar and a malformed sidecar yield the same sentinel. -/
theorem c4_witness :
    loadPhotoMetadata [] "a.jpg" = emptyPhotoInfo ∧
    loadPhotoMetadata [("a.jpg.json", Content.malformed)] "a.jpg" = emptyPhotoInfo := by
  constructor
  · exact (c4_load_missing_and_corrupt_equivalent [] "a.jpg").1 (by decide)
  · exact (c4_load_missing_and_corrupt_equivalent [("a.jpg.json", Content.malformed)]
      "a.jpg").2 Content.malformed (by decide) (by decide)

/-- C5: for every `PhotoInfo` record and filename, `savePhotoMetadata` followed by
`loadPhotoMetadata` of the same filename returns a record equal in all fields (path,
name, uploader, event, upload time, photo time) to the one saved. -/
theorem c5_sidecar_round_trip (metaDir : List (String × Content)) (filename : String)
    (info : PhotoInfo) :
    loadPhotoMetadata (savePhotoMetadata metaDir filename info) filename = info := by
  unfold savePhotoMetadata loadPhotoMetadata
  rw [List.lookup_cons_self]
  unfold unmarshalPhotoInfo marshalPhotoInfo
  simp [getStrField, getTimeField, List.lookup]

/-! ### Filtering -/

theorem FilterPhotos_eq_filter (photos : List PhotoInfo) (ef uf : String) :
    FilterPhotos photos ef uf = photos.filter (fun p =>
      decide ((ef = "" ∨ p.Event = ef) ∧ (uf = "" ∨ p.Uploader = uf))) := by
  induction photos with
  | nil => rfl
  | cons p rest ih =>
    rw [List.filter_cons]
    unfold FilterPhotos
    by_cases h1 : ef ≠ "" ∧ p.Event ≠ ef
    · rw [if_pos h1, ih, if_neg]
      simp only [decide_eq_true_eq]
      tauto
    · rw [if_neg h1]
      by_cases h2 : uf ≠ "" ∧ p.Uploader ≠ uf
      · rw [if_pos h2, ih, if_neg]
        simp only [decide_eq_true_eq]
        tauto
      · rw [if_neg h2, ih, if_pos]
        simp only [decide_eq_true_eq]
        tauto

theorem mem_FilterPhotos {photos : List PhotoInfo} {ef uf : String} {p : PhotoInfo} :
    p ∈ FilterPhotos photos ef uf ↔
      p ∈ photos ∧ (ef ≠ "" → p.Event = ef) ∧ (uf ≠ "" → p.Uploader = uf) := by
  rw [FilterPhotos_eq_filter, List.mem_filter]
  simp only [decide_eq_true_eq]
  tauto

/-- C8: `FilterPhotos` returns exactly the records matching the event filter (when
non-empty) and the uploader filter (when non-empty), by exact string match, an empty
filter imposing no constraint — stated both as an equality with `List.filter` (so order
and multiplicity are preserved) and as a membership characterization — and on photos
tagged `(A,X), (A,Y), (B,X)` filtering by event `A` returns 2 records, by uploader `X`
returns 2, by both returns 1, by neither returns 3. -/
theorem c8_filter_combination :
    (∀ (photos : List PhotoInfo) (ef uf : String),
      FilterPhotos photos ef uf = photos.filter (fun p =>
        decide ((ef = "" ∨ p.Event = ef) ∧ (uf = "" ∨ p.Uploader = uf)))) ∧
    (∀ (photos : List PhotoInfo) (ef uf : String) (p : PhotoInfo),
      p ∈ FilterPhotos photos ef uf ↔
        p ∈ photos ∧ (ef ≠ "" → p.Event = ef) ∧ (uf ≠ "" → p.Uploader = uf)) ∧
    (FilterPhotos [photoAX, photoAY, photoBX] "A" "").length = 2 ∧
    (FilterPhotos [photoAX, photoAY, photoBX] "" "X").length = 2 ∧
    (FilterPhotos [photoAX, photoAY, photoBX] "A" "X").length = 1 ∧
    (FilterPhotos [photoAX, photoAY, photoBX] "" "").length = 3 :=
  ⟨FilterPhotos_eq_filter, fun _ _ _ _ => mem_FilterPhotos,
    by decide, by decide, by decide, by decide⟩

/-! ### Sorting -/

theorem selectMax_length (key : PhotoInfo → Nat) :
    ∀ (t : List PhotoInfo) (h : PhotoInfo), (selectMax key h t).2.length = t.length := by
  intro t
  induction t with
  | nil => intro h; rfl
  | cons x xs ih =>
    intro h
    unfold selectMax
    by_cases hc : key h < key x
    · rw [if_pos hc]
      simp [ih x]
    · rw [if_neg hc]
      simp [ih h]

theorem selectMax_fst_ge (key : PhotoInfo → Nat) :
    ∀ (t : List PhotoInfo) (h : PhotoInfo), key h ≤ key (selectMax key h t).1 := by
  intro t
  induction t with
  | nil => intro h; exact le_refl _
  | cons x xs ih =>
    intro h
    unfold selectMax
    by_cases hc : key h < key x
    · rw [if_pos hc]
      exact le_trans (le_of_lt hc) (ih x)
    · rw [if_neg hc]
      exact ih h

theorem selectMax_snd_le (key : PhotoInfo → Nat) :
    ∀ (t : List PhotoInfo) (h y : PhotoInfo), y ∈ (selectMax key h t).2 →
      key y ≤ key (selectMax key h t).1 := by
  intro t
  induction t with
  | nil =>
    intro h y hy
    simp [selectMax] at hy
  | cons x xs ih =>
    intro h y hy
    unfold selectMax at hy ⊢
    by_cases hc : key h < key x
    · rw [if_pos hc] at hy ⊢
      rcases List.mem_cons.mp hy with rfl | hmem
      · exact le_trans (le_of_lt hc) (selectMax_fst_ge key xs x)
      · exact ih x y hmem
    · rw [if_neg hc] at hy ⊢
      rcases List.mem_cons.mp hy with rfl | hmem
      · exact le_trans (Nat.le_of_not_lt hc) (selectMax_fst_ge key xs h)
      · exact ih h y hmem

theorem selectMax_perm (key : PhotoInfo → Nat) :
    ∀ (t : List PhotoInfo) (h : PhotoInfo),
      ((selectMax key h t).1 :: (selectMax key h t).2).Perm (h :: t) := by
  intro t
  induction t with
  | nil => intro h; simp [selectMax]
  | cons x xs ih =>
    intro h
    unfold selectMax
    by_cases hc : key h < key x
    · rw [if_pos hc]
      refine List.Perm.trans (List.Perm.swap h (selectMax key x xs).1 _) ?_
      exact List.Perm.cons h (ih x)
    · rw [if_neg hc]
      refine List.Perm.trans (List.Perm.swap x (selectMax key h xs).1 _) ?_
      refine List.Perm.trans (List.Perm.cons x (ih h)) ?_
      exact List.Perm.swap h x xs

theorem sortDescAux_perm (key : PhotoInfo → Nat) :
    ∀ (fuel : Nat) (l : List PhotoInfo), l.length ≤ fuel →
      (sortDescAux key fuel l).Perm l := by
  intro fuel
  induction fuel with
  | zero =>
    intro l hl
    have hnil : l = [] := List.eq_nil_of_length_eq_zero (by omega)
    subst hnil
    simp [sortDescAux]
  | succ fuel ih =>
    intro l hl
    cases l with
    | nil => simp [sortDescAux]
    | cons h t =>
      unfold sortDescAux
      refine List.Perm.trans ?_ (selectMax_perm key t h)
      refine List.Perm.cons _ (ih _ ?_)
      rw [selectMax_length]
      simpa using hl

theorem sortDescAux_sorted (key : PhotoInfo → Nat) :
    ∀ (fuel : Nat) (l : List PhotoInfo), l.length ≤ fuel →
      (sortDescAux key fuel l).Pairwise (fun a b => key b ≤ key a) := by
  intro fuel
  induction fuel with
  | zero =>
    intro l hl
    have hnil : l = [] := List.eq_nil_of_length_eq_zero (by omega)
    subst hnil
    simp [sortDescAux]
  | succ fuel ih =>
    intro l hl
    cases l with
    | nil => simp [sortDescAux]
    | cons h t =>
      unfold sortDescAux
      have hlen : (selectMax key h t).2.length ≤ fuel := by
        rw [selectMax_length]
        simpa using hl
      refine List.pairwise_cons.mpr ⟨?_, ih _ hlen⟩
      intro y hy
      exact selectMax_snd_le key t h y ((sortDescAux_perm key fuel _ hlen).mem_iff.mp hy)

theorem sortByEffectiveTimeDesc_sorted (l : List PhotoInfo) :
    (sortByEffectiveTimeDesc l).Pairwise (fun a b => effectiveTime b ≤ effectiveTime a) :=
  sortDescAux_sorted effectiveTime l.length l (le_refl _)

theorem sortByEffectiveTimeDesc_perm (l : List PhotoInfo) :
    (sortByEffectiveTimeDesc l).Perm l :=
  sortDescAux_perm effectiveTime l.length l (le_refl _)

/-- C2: for every directory state and clock value, the list returned by `GetPhotos` is
sorted in descending order of effective time (`photoTime` when non-zero, else the upload
time `Date`); in particular, for photos `A (photoTime = 1)`, `B (photoTime unknown,
uploadTime = 2)`, `C (photoTime = 3)`, the returned order is `[C, B, A]`. -/
theorem c2_getphotos_sorted_by_effective_time :
    (∀ (s : FSState) (now : Nat),
      (GetPhotos s now).Pairwise (fun a b => effectiveTime b ≤ effectiveTime a)) ∧
    GetPhotos exampleSortState 100 = [recSortC, recSortB, recSortA] := by
  constructor
  · intro s now
    unfold GetPhotos
    exact sortByEffectiveTimeDesc_sorted _
  · decide

/-! ### Thumbnail dimensions -/

/-- C6: for every decoded raster with both dimensions at least 1, the thumbnail dimension
computation succeeds, the longest output side equals the bounding size `thumbnailSize`,
and the other side is the integer scaling `floor(otherSrcDim * T / longSrcDim)` —
preserving the aspect ratio within integer-rounding tolerance. -/
theorem c6_resize_aspect_preservation (w h : Nat) (hw : 1 ≤ w) (hh : 1 ≤ h) :
    ∃ nw nh, computeThumbDims w h = some (nw, nh) ∧
      max nw nh = thumbnailSize ∧
      min nw nh = (min w h) * thumbnailSize / (max w h) := by
  unfold computeThumbDims goDiv thumbnailSize
  by_cases hc : w > h
  · rw [if_pos hc, if_neg (by omega : ¬ w = 0)]
    refine ⟨300, h * 300 / w, rfl, ?_, ?_⟩
    · have hle : h * 300 / w ≤ 300 := by
        have h1 : h * 300 ≤ w * 300 := Nat.mul_le_mul_right 300 (by omega)
        have h2 : h * 300 / w ≤ w * 300 / w := Nat.div_le_div_right h1
        rwa [Nat.mul_div_cancel_left 300 (by omega : 0 < w)] at h2
      omega
    · have hle : h * 300 / w ≤ 300 := by
        have h1 : h * 300 ≤ w * 300 := Nat.mul_le_mul_right 300 (by omega)
        have h2 : h * 300 / w ≤ w * 300 / w := Nat.div_le_div_right h1
        rwa [Nat.mul_div_cancel_left 300 (by omega : 0 < w)] at h2
      rw [show min w h = h by omega, show max w h = w by omega]
      omega
  · rw [if_neg hc, if_neg (by omega : ¬ h = 0)]
    refine ⟨w * 300 / h, 300, rfl, ?_, ?_⟩
    · have hle : w * 300 / h ≤ 300 := by
        have h1 : w * 300 ≤ h * 300 := Nat.mul_le_mul_right 300 (by omega)
        have h2 : w * 300 / h ≤ h * 300 / h := Nat.div_le_div_right h1
        rwa [Nat.mul_div_cancel_left 300 (by omega : 0 < h)] at h2
      omega
    · have hle : w * 300 / h ≤ 300 := by
        have h1 : w * 300 ≤ h * 300 := Nat.mul_le_mul_right 300 (by omega)
        have h2 : w * 300 / h ≤ h * 300 / h := Nat.div_le_div_right h1
        rwa [Nat.mul_div_cancel_left 300 (by omega : 0 < h)] at h2
      rw [show min w h = w by omega, show max w h = h by omega]
      omega

/-- C6 witness: a 4 × 3 source is bounded to a 300-longest-side thumbnail with the other
side integer-scaled. -/
theorem c6_witness :
    ∃ nw nh, computeThumbDims 4 3 = some (nw, nh) ∧
      max nw nh = thumbnailSize ∧
      min nw nh = (min 4 3) * thumbnailSize / (max 4 3) :=
  c6_resize_aspect_preservation 4 3 (by decide) (by decide)

/-- C7 counterexample: a decoded 0 × 0 raster drives the dimension computation into a
division by zero (modelled `none`, a runtime panic, not a `DecodeError`), and a decoded
0 × 5 raster proceeds to a 0 × 300 thumbnail instead of failing with a `DecodeError` —
refuting both halves of the claim for rasters that decode with a zero dimension. -/
theorem c7_counterexample :
    computeThumbDims 0 0 = none ∧
    computeThumbDims 0 5 = some (0, thumbnailSize) ∧
    generateThumbnail (some { width := 0, height := 0, pix := fun _ _ => 0 }) =
      .error .divByZeroPanic := by
  refine ⟨by decide, by decide, ?_⟩
  rfl

/-- C7 amended: the repository's dimension computation contains no zero-dimension check:
whenever at least one source dimension is positive it succeeds without dividing by zero
(yielding a degenerate zero-sized axis when the other dimension is 0), and only the
0 × 0 raster reaches a division by zero; the nearest-neighbour resampler never divides
by zero because its divisors are the destination dimensions, which strictly bound the
loop coordinates; a `DecodeError` arises exactly when `image.Decode` itself fails, so
degenerate image files fail with a `DecodeError` only because the decoder rejects them
before the dimension computation runs. -/
theorem c7_division_by_zero_analysis :
    (∀ w h : Nat, 1 ≤ w ∨ 1 ≤ h → (computeThumbDims w h).isSome = true) ∧
    computeThumbDims 0 0 = none ∧
    (∀ srcDim dstDim coord : Nat, coord < dstDim →
      (resizeSrcIndex srcDim dstDim coord).isSome = true) ∧
    (∀ img : RawImage, generateThumbnail (some img) ≠ .error .decodeError) ∧
    generateThumbnail (none : Option RawImage) = .error .decodeError := by
  refine ⟨?_, by decide, ?_, ?_, rfl⟩
  · intro w h hwh
    unfold computeThumbDims goDiv
    by_cases hc : w > h
    · rw [if_pos hc, if_neg (by omega : ¬ w = 0)]
      rfl
    · rw [if_neg hc, if_neg (by omega : ¬ h = 0)]
      rfl
  · intro sd dd c hlt
    unfold resizeSrcIndex goDiv
    rw [if_neg (by omega : ¬ dd = 0)]
    rfl
  · intro img hcontra
    rw [show generateThumbnail (some img) =
        (match computeThumbDims img.width img.height with
         | none => Except.error ThumbError.divByZeroPanic
         | some (nw, nh) => Except.ok (resizeImage img nw nh)) from rfl] at hcontra
    cases hct : computeThumbDims img.width img.height with
    | none =>
      rw [hct] at hcontra
      simp at hcontra
    | some p =>
      rw [hct] at hcontra
      cases p
      simp at hcontra

/-- C7 witness. -/
theorem c7_witness :
    (computeThumbDims 0 5).isSome = true ∧ (resizeSrcIndex 5 300 7).isSome = true :=
  ⟨c7_division_by_zero_analysis.1 0 5 (Or.inr (by decide)),
    c7_division_by_zero_analysis.2.2.1 5 300 7 (by decide)⟩

/-! ### Download-all -/

theorem getPhotos_path {s : FSState} {now : Nat} {p : PhotoInfo}
    (hmeta : ∀ f ∈ s.uploads, (loadPhotoMetadata s.metaDir f.name).Path = "" ∨
      (loadPhotoMetadata s.metaDir f.name).Path = "/uploads/" ++ f.name)
    (hp : p ∈ GetPhotos s now) :
    ∃ f ∈ s.uploads, p.Path = "/uploads/" ++ f.name := by
  unfold GetPhotos at hp
  have hp2 := (sortByEffectiveTimeDesc_perm _).mem_iff.mp hp
  rcases List.mem_map.mp hp2 with ⟨f, hf, hbody⟩
  have hfu : f ∈ s.uploads := List.mem_of_mem_filter hf
  refine ⟨f, hfu, ?_⟩
  by_cases hpath : (loadPhotoMetadata s.metaDir f.name).Path = ""
  · rw [if_pos hpath] at hbody
    rw [← hbody]
  · rw [if_neg hpath] at hbody
    rw [← hbody]
    exact (hmeta f hfu).resolve_left hpath

theorem zipEntries_length (s : FSState) :
    ∀ photos : List PhotoInfo,
      (∀ p ∈ photos, statName (uploadNames s) (baseName p.Path) = true) →
      (zipEntries s photos).length = photos.length := by
  intro photos
  induction photos with
  | nil => intro _; rfl
  | cons p rest ih =>
    intro hall
    unfold zipEntries at ih ⊢
    rw [List.filterMap_cons, hall p (List.mem_cons_self p rest)]
    simp only [if_true, List.length_cons]
    rw [ih (fun q hq => hall q (List.mem_cons_of_mem p hq))]

/-- C9: a download-all request whose event/uploader filters match zero photos yields a
NotFound error before the archive (or its headers) is even opened; conversely, whenever
an archive is produced it holds one entry per matched photo, hence is never empty.
The hypotheses say the upload directory holds ordinary entry names and each sidecar's
stored path is either absent or the canonical `/uploads/<filename>` that
`savePhotoMetadata` writes. -/
theorem c9_empty_filter_set_is_not_found (s : FSState) (now : Nat) (ts ef uf : String)
    (hplain : ∀ f ∈ s.uploads, PlainName f.name)
    (hmeta : ∀ f ∈ s.uploads, (loadPhotoMetadata s.metaDir f.name).Path = "" ∨
      (loadPhotoMetadata s.metaDir f.name).Path = "/uploads/" ++ f.name) :
    (FilterPhotos (GetPhotos s now) ef uf = [] →
      HandleDownloadAll s now ts ef uf = .notFound) ∧
    (∀ fn es, HandleDownloadAll s now ts ef uf = .zipArchive fn es →
      es.length = (FilterPhotos (GetPhotos s now) ef uf).length ∧ es ≠ []) := by
  constructor
  · intro h
    unfold HandleDownloadAll
    rw [h]
    simp
  · intro fn es heq
    unfold HandleDownloadAll at heq
    by_cases hlen : (FilterPhotos (GetPhotos s now) ef uf).length = 0
    · rw [if_pos hlen] at heq
      exact DownloadResult.noConfusion heq
    · rw [if_neg hlen] at heq
      injection heq with h1 h2
      have hall : ∀ p ∈ FilterPhotos (GetPhotos s now) ef uf,
          statName (uploadNames s) (baseName p.Path) = true := by
        intro p hp
        have hp0 : p ∈ GetPhotos s now := (mem_FilterPhotos.mp hp).1
        obtain ⟨f, hf, hpath⟩ := getPhotos_path hmeta hp0
        rw [hpath, baseName_slash_append (hplain f hf)]
        exact (statName_plain (hplain f hf) _).mpr (List.mem_map.mpr ⟨f, hf, rfl⟩)
      have hzl := zipEntries_length s _ hall
      rw [h2] at hzl
      refine ⟨hzl, ?_⟩
      intro hnil
      rw [hnil] at hzl
      simp at hzl
      omega

/-- C9 witness: on a one-photo state, a filter matching nothing is NotFound, and the
matching filter produces a one-entry archive. -/
theorem c9_witness :
    HandleDownloadAll exampleDLState 100 "TS" "Zed" "" = DownloadResult.notFound ∧
    (∀ fn es, HandleDownloadAll exampleDLState 100 "TS" "A" "" =
      DownloadResult.zipArchive fn es → es ≠ []) := by
  constructor
  · exact (c9_empty_filter_set_is_not_found exampleDLState 100 "TS" "Zed" ""
      (by decide) (by decide)).1 (by decide)
  · intro fn es heq
    exact ((c9_empty_filter_set_is_not_found exampleDLState 100 "TS" "A" ""
      (by decide) (by decide)).2 fn es heq).2

/-! ### Reconciliation -/

theorem setMetaDir_eq {X : FSState} {M : List (String × Content)} (h : M = X.metaDir) :
    { X with metaDir := M } = X := by
  cases X
  subst h
  rfl

theorem setThumbs_eq {X : FSState} {T : List String} (h : T = X.thumbs) :
    { X with thumbs := T } = X := by
  cases X
  subst h
  rfl

theorem reconcile_metaDir_eq (s : FSState) : (reconcile s).metaDir =
    (s.uploads.foldl metaStep s.metaDir).filter (metaKeep (uploadNames s)) := rfl

theorem reconcile_thumbs_eq (s : FSState) : (reconcile s).thumbs =
    (s.uploads.foldl thumbStep s.thumbs).filter (thumbKeep (uploadNames s)) := rfl

theorem metaStep_mono (acc : List (String × Content)) (f : UFile) (e : String × Content)
    (he : e ∈ acc) : e ∈ metaStep acc f := by
  unfold metaStep
  cases hg : (isImageFile f.name && !(metaKeys acc).contains (sidecarName f.name)) with
  | true =>
    simp only [if_true]
    exact List.mem_append_left _ he
  | false =>
    simp only [Bool.false_eq_true, if_false]
    exact he

theorem metaFold_mono : ∀ (l : List UFile) (acc : List (String × Content))
    (e : String × Content), e ∈ acc → e ∈ l.foldl metaStep acc := by
  intro l
  induction l with
  | nil => intro acc e he; simpa using he
  | cons x xs ih =>
    intro acc e he
    rw [List.foldl_cons]
    exact ih _ e (metaStep_mono acc x e he)

theorem metaKeys_fold_mono (l : List UFile) (acc : List (String × Content)) (key : String)
    (h : key ∈ metaKeys acc) : key ∈ metaKeys (l.foldl metaStep acc) := by
  rcases List.mem_map.mp h with ⟨e, he, he1⟩
  exact List.mem_map.mpr ⟨e, metaFold_mono l acc e he, he1⟩

theorem metaFold_covers : ∀ (l : List UFile) (acc : List (String × Content)) (f : UFile),
    f ∈ l → isImageFile f.name = true →
    sidecarName f.name ∈ metaKeys (l.foldl metaStep acc) := by
  intro l
  induction l with
  | nil =>
    intro acc f hf
    simp at hf
  | cons x xs ih =>
    intro acc f hf himg
    rw [List.foldl_cons]
    rcases List.mem_cons.mp hf with rfl | hmem
    · apply metaKeys_fold_mono
      unfold metaStep
      cases hg : (isImageFile f.name && !(metaKeys acc).contains (sidecarName f.name)) with
      | true =>
        simp only [if_true]
        unfold metaKeys
        rw [List.map_append]
        exact List.mem_append_right _ (by simp)
      | false =>
        simp only [Bool.false_eq_true, if_false]
        simp only [himg, Bool.true_and, Bool.not_eq_false'] at hg
        simpa using hg
    · exact ih (metaStep acc x) f hmem himg

theorem metaFold_noop : ∀ (l : List UFile) (acc : List (String × Content)),
    (∀ f ∈ l, isImageFile f.name = true → sidecarName f.name ∈ metaKeys acc) →
    l.foldl metaStep acc = acc := by
  intro l
  induction l with
  | nil => intro acc _; rfl
  | cons x xs ih =>
    intro acc hall
    rw [List.foldl_cons]
    have hstep : metaStep acc x = acc := by
      unfold metaStep
      cases himg : isImageFile x.name with
      | false => simp [himg]
      | true =>
        have hkey := hall x (List.mem_cons_self x xs) himg
        have hcont : (metaKeys acc).contains (sidecarName x.name) = true := by
          simpa using hkey
        simp only [himg, hcont, Bool.not_true, Bool.true_and, Bool.and_false,
          Bool.false_eq_true, if_false]
    rw [hstep]
    exact ih acc (fun f hf h => hall f (List.mem_cons_of_mem x hf) h)

theorem thumbStep_mono (acc : List String) (f : UFile) (e : String) (he : e ∈ acc) :
    e ∈ thumbStep acc f := by
  unfold thumbStep
  cases hg : (isImageFile f.name && !acc.contains f.name && f.decodable) with
  | true =>
    simp only [if_true]
    exact List.mem_append_left _ he
  | false =>
    simp only [Bool.false_eq_true, if_false]
    exact he

theorem thumbFold_mono : ∀ (l : List UFile) (acc : List String) (e : String),
    e ∈ acc → e ∈ l.foldl thumbStep acc := by
  intro l
  induction l with
  | nil => intro acc e he; simpa using he
  | cons x xs ih =>
    intro acc e he
    rw [List.foldl_cons]
    exact ih _ e (thumbStep_mono acc x e he)

theorem thumbFold_covers : ∀ (l : List UFile) (acc : List String) (f : UFile),
    f ∈ l → isImageFile f.name = true → f.decodable = true →
    f.name ∈ l.foldl thumbStep acc := by
  intro l
  induction l with
  | nil =>
    intro acc f hf
    simp at hf
  | cons x xs ih =>
    intro acc f hf himg hdec
    rw [List.foldl_cons]
    rcases List.mem_cons.mp hf with rfl | hmem
    · apply thumbFold_mono
      unfold thumbStep
      cases hg : (isImageFile f.name && !acc.contains f.name && f.decodable) with
      | true =>
        simp only [if_true]
        exact List.mem_append_right _ (by simp)
      | false =>
        simp only [Bool.false_eq_true, if_false]
        simp only [himg, hdec, Bool.true_and, Bool.and_true, Bool.not_eq_false'] at hg
        simpa using hg
    · exact ih (thumbStep acc x) f hmem himg hdec

theorem thumbFold_noop : ∀ (l : List UFile) (acc : List String),
    (∀ f ∈ l, isImageFile f.name = true → f.decodable = true → f.name ∈ acc) →
    l.foldl thumbStep acc = acc := by
  intro l
  induction l with
  | nil => intro acc _; rfl
  | cons x xs ih =>
    intro acc hall
    rw [List.foldl_cons]
    have hstep : thumbStep acc x = acc := by
      unfold thumbStep
      cases himg : isImageFile x.name with
      | false => simp [himg]
      | true =>
        cases hdec : x.decodable with
        | false => simp [himg, hdec]
        | true =>
          have hcont : acc.contains x.name = true := by
            simpa using hall x (List.mem_cons_self x xs) himg hdec
          simp only [himg, hdec, hcont, Bool.not_true, Bool.true_and, Bool.and_true,
            Bool.false_and, Bool.false_eq_true, if_false]
    rw [hstep]
    exact ih acc (fun f hf h1 h2 => hall f (List.mem_cons_of_mem x hf) h1 h2)

theorem sidecar_data (n : String) : (sidecarName n).data = n.data ++ ".json".data := by
  unfold sidecarName
  rw [String.data_append]

theorem trimSuffix_sidecar (n : String) : trimSuffix (sidecarName n) ".json" = n := by
  unfold trimSuffix
  rw [if_pos (List.isSuffixOf_iff_suffix.mpr ⟨n.data, (sidecar_data n).symm⟩)]
  apply String.ext
  rw [asString_data, sidecar_data]
  rw [show (n.data ++ ".json".data).length - ".json".data.length = n.data.length by simp]
  exact List.take_left n.data _

/-- C3: running the full reconciliation sequence (generate missing metadata, generate
missing thumbnails, remove orphaned sidecars, remove orphaned thumbnails) twice in
succession from any directory state whose upload entries bear ordinary names leaves the
state reached after the first run unchanged: the second run creates and deletes
nothing. -/
theorem c3_reconcile_idempotent (s : FSState)
    (hplain : ∀ f ∈ s.uploads, PlainName f.name) :
    reconcile (reconcile s) = reconcile s := by
  have hup : (reconcile s).uploads = s.uploads := rfl
  have hnames : uploadNames (reconcile s) = uploadNames s := rfl
  have hmcov : ∀ f ∈ s.uploads, isImageFile f.name = true →
      sidecarName f.name ∈ metaKeys (reconcile s).metaDir := by
    intro f hf himg
    rw [reconcile_metaDir_eq]
    have h1 : sidecarName f.name ∈ metaKeys (s.uploads.foldl metaStep s.metaDir) :=
      metaFold_covers s.uploads s.metaDir f hf himg
    rcases List.mem_map.mp h1 with ⟨e, he, he1⟩
    refine List.mem_map.mpr ⟨e, List.mem_filter.mpr ⟨he, ?_⟩, he1⟩
    have hstat : statName (uploadNames s) (trimSuffix e.1 ".json") = true := by
      rw [he1, trimSuffix_sidecar]
      exact (statName_plain (hplain f hf) _).mpr (List.mem_map.mpr ⟨f, hf, rfl⟩)
    unfold metaKeep
    rw [hstat, Bool.or_true]
  have hA : GenerateMissingMetadata (reconcile s) = reconcile s := by
    apply setMetaDir_eq
    have : (reconcile s).uploads.foldl metaStep (reconcile s).metaDir =
        (reconcile s).metaDir := by
      rw [hup]
      exact metaFold_noop s.uploads _ hmcov
    rw [this]
  have htcov : ∀ f ∈ s.uploads, isImageFile f.name = true → f.decodable = true →
      f.name ∈ (reconcile s).thumbs := by
    intro f hf himg hdec
    rw [reconcile_thumbs_eq]
    refine List.mem_filter.mpr ⟨thumbFold_covers s.uploads s.thumbs f hf himg hdec, ?_⟩
    have hstat : statName (uploadNames s) f.name = true :=
      (statName_plain (hplain f hf) (uploadNames s)).mpr (List.mem_map.mpr ⟨f, hf, rfl⟩)
    unfold thumbKeep
    rw [hstat, Bool.or_true]
  have hB : GenerateMissingThumbnails (reconcile s) = reconcile s := by
    apply setThumbs_eq
    have : (reconcile s).uploads.foldl thumbStep (reconcile s).thumbs =
        (reconcile s).thumbs := by
      rw [hup]
      exact thumbFold_noop s.uploads _ htcov
    rw [this]
  have hC : CleanupOrphanedMetadata (reconcile s) = reconcile s := by
    apply setMetaDir_eq
    rw [hnames, reconcile_metaDir_eq, List.filter_filter]
    exact List.filter_congr (fun x _ => Bool.and_self _)
  have hD : CleanupOrphanedThumbnails (reconcile s) = reconcile s := by
    apply setThumbs_eq
    rw [hnames, reconcile_thumbs_eq, List.filter_filter]
    exact List.filter_congr (fun x _ => Bool.and_self _)
  calc reconcile (reconcile s)
      = CleanupOrphanedThumbnails (CleanupOrphanedMetadata (GenerateMissingThumbnails
          (GenerateMissingMetadata (reconcile s)))) := rfl
    _ = reconcile s := by rw [hA, hB, hC, hD]

/-- C3 witness: on a state with a backfillable image, an undecodable image, a non-image
file, an orphaned sidecar and an orphaned thumbnail, the second reconciliation run
changes nothing. -/
theorem c3_witness : reconcile (reconcile exampleReconState) = reconcile exampleReconState :=
  c3_reconcile_idempotent exampleReconState (by decide)

/-- C2 witness: the sortedness guarantee evaluated on the concrete scenario state. -/
theorem c2_witness : (GetPhotos exampleSortState 100).Pairwise
    (fun a b => effectiveTime b ≤ effectiveTime a) :=
  c2_getphotos_sorted_by_effective_time.1 exampleSortState 100

/-- C5 witness: a concrete record saved and reloaded intact. -/
theorem c5_witness :
    loadPhotoMetadata (savePhotoMetadata [] "p.jpg" photoAX) "p.jpg" = photoAX :=
  c5_sidecar_round_trip [] "p.jpg" photoAX

/-- C8 witness: one of the concrete filter counts. -/
theorem c8_witness : (FilterPhotos [photoAX, photoAY, photoBX] "A" "").length = 2 :=
  c8_filter_combination.2.2.1

end Gallery
